import Mathlib

/-!
Verification of the cooperatives ETL pipeline against its specification.

The Python sources are shallowly embedded: Python strings are modelled as
lists of characters (`PStr`), missing values (`NaN` / `None`) as `Option`,
pandas numeric columns as `Rat`, and the dataframe operations used by the
pipeline (stable sort, groupby-shift, rolling windows, drop-duplicates) as
explicit list functions.
-/

set_option maxRecDepth 4000

/-! ## Python string primitives -/

/-- Python strings modelled as lists of characters. -/
abbrev PStr := List Char

/-- Characters stripped by the Python default `str.strip`. -/
def pyIsSpace (c : Char) : Bool :=
  c = ' ' || c = '\t' || c = '\n' || c = '\r' || c = '\x0b' || c = '\x0c'

/-- Python `str.strip()`: remove leading and trailing whitespace. -/
def pyStrip (s : PStr) : PStr :=
  ((s.dropWhile pyIsSpace).reverse.dropWhile pyIsSpace).reverse

/-- Python `str.upper()` restricted to the characters that occur in the
    pipeline data: ASCII letters plus the accented vowels used in the
    prefix tables. -/
def pyUpperChar (c : Char) : Char :=
  if 'a' ≤ c ∧ c ≤ 'z' then Char.ofNat (c.toNat - 32)
  else if c = 'á' then 'Á'
  else if c = 'é' then 'É'
  else if c = 'í' then 'Í'
  else if c = 'ó' then 'Ó'
  else if c = 'ú' then 'Ú'
  else if c = 'ñ' then 'Ñ'
  else if c = 'ü' then 'Ü'
  else c

/-- Python `str.upper()` on a whole string. -/
def pyUpper (s : PStr) : PStr := s.map pyUpperChar

/-- Fuel-driven scanner for `pyReplace`; every step consumes at least one
    character of the scanned string, so fuel equal to its length makes the
    scan total while keeping the recursion structural. -/
def pyReplaceGo (pat rep : PStr) : Nat → PStr → PStr
  | 0, s => s
  | _ + 1, [] => []
  | fuel + 1, c :: rest =>
    if pat ≠ [] ∧ pat.isPrefixOf (c :: rest) then
      rep ++ pyReplaceGo pat rep fuel ((c :: rest).drop pat.length)
    else
      c :: pyReplaceGo pat rep fuel rest

/-- Python `str.replace(pat, rep)`: replace every non-overlapping
    occurrence of `pat`, scanning left to right. -/
def pyReplace (pat rep s : PStr) : PStr :=
  pyReplaceGo pat rep s.length s

/-- Helper for the Python no-argument `str.split()`: accumulates the
    current word (reversed) while scanning. -/
def pySplitAux : PStr → PStr → List PStr
  | [], w => if w = [] then [] else [w.reverse]
  | c :: rest, w =>
    if pyIsSpace c then
      if w = [] then pySplitAux rest [] else w.reverse :: pySplitAux rest []
    else
      pySplitAux rest (c :: w)

/-- Python `str.split()` with no argument: split on whitespace runs,
    discarding empty fields. -/
def pySplitWs (s : PStr) : List PStr :=
  pySplitAux s []

/-- The idiom `" ".join(s.split())` used by both canonicalizers to collapse
    whitespace runs into single spaces. -/
def collapseWs (s : PStr) : PStr :=
  List.intercalate [' '] (pySplitWs s)

/-! ## Entity name canonicalizers

Translated from `normalizar_nombre` in `procesar_balance_cooperativas.py`
and `normalizar_nombre_cooperativa` in `procesar_pyg.py`. -/

/-- The fixed legal-form prefixes stripped by `normalizar_nombre`. -/
def PREFIJOS : List PStr :=
  [("COOPERATIVA DE AHORRO Y CREDITO ").data,
   ("COOPERATIVA DE AHORRO Y CRÉDITO ").data,
   ("COOP. DE AHORRO Y CREDITO ").data]

/-- The prefix loop of `normalizar_nombre`: the first prefix (in list
    order) that matches the uppercased name is removed, then the loop
    breaks; at most one prefix is stripped. -/
def quitarPrefijo : List PStr → PStr → PStr
  | [], n => n
  | p :: ps, n =>
    if p.isPrefixOf (pyUpper n) then n.drop p.length else quitarPrefijo ps n

/-- Balance-pipeline canonicalizer `normalizar_nombre`: on a missing value
    returns the empty string; otherwise strips, removes one legal-form
    prefix, rewrites LIMITADA to LTDA, drops a trailing period after LTDA,
    and collapses whitespace. -/
def normalizar_nombre : Option PStr → PStr
  | none => []
  | some n0 =>
    let n1 := pyStrip n0
    let n2 := pyStrip (quitarPrefijo PREFIJOS n1)
    let n3 := pyReplace ((" LIMITADA").data) ((" LTDA").data) n2
    let n4 := if (("LTDA.").data).isSuffixOf n3 then n3.dropLast else n3
    collapseWs n4

/-- Income-statement canonicalizer `normalizar_nombre_cooperativa`: on a
    missing value it returns the input itself (the missing value), and it
    never strips legal-form prefixes. -/
def normalizar_nombre_cooperativa : Option PStr → Option PStr
  | none => none
  | some n0 =>
    let n1 := pyStrip n0
    let n2 := pyReplace ((" LIMITADA").data) ((" LTDA").data) n1
    let n3 := if (("LTDA.").data).isSuffixOf n2 then n2.dropLast else n2
    some (collapseWs n3)

/-! ## Account level from code length

Translated from `calcular_nivel` in `procesar_balance_cooperativas.py`. -/

/-- Hierarchy level of an account code, computed from the length
    (`longitud` in the source) of the stripped code string; a missing code
    yields level 0. -/
def calcular_nivel : Option PStr → Nat
  | none => 0
  | some c =>
    if (pyStrip c).length = 1 then 1
    else if (pyStrip c).length = 2 then 2
    else if (pyStrip c).length ≤ 4 then 3
    else if (pyStrip c).length ≤ 6 then 4
    else 5

/-! ## Claims C5, C9, C10 -/

/-- Claim C5 (counterexample): the canonicalizer is not idempotent, because
    it strips at most one legal-form prefix per application; on a name
    carrying the prefix twice, a second application strips a second copy. -/
theorem normalizar_nombre_not_idempotent :
    normalizar_nombre (some (normalizar_nombre (some
        (("COOPERATIVA DE AHORRO Y CREDITO COOPERATIVA DE AHORRO Y CREDITO X").data))))
      ≠ normalizar_nombre (some
        (("COOPERATIVA DE AHORRO Y CREDITO COOPERATIVA DE AHORRO Y CREDITO X").data)) := by
  decide

/-- Claim C5 (amended): canonicalizing the documented example
    COOPERATIVA DE AHORRO Y CREDITO X LIMITADA yields X LTDA, and the
    canonicalizer is idempotent on that output: X LTDA maps to itself. -/
theorem normalizar_nombre_ejemplo :
    normalizar_nombre (some (("COOPERATIVA DE AHORRO Y CREDITO X LIMITADA").data))
        = (("X LTDA").data)
      ∧ normalizar_nombre (some (("X LTDA").data)) = (("X LTDA").data) := by
  exact ⟨by decide, by decide⟩

/-- Claim C9 (counterexample): the income-statement canonicalizer returns a
    missing input unchanged instead of the empty string. -/
theorem normalizar_nombre_cooperativa_none_not_empty :
    normalizar_nombre_cooperativa none ≠ some [] := by
  decide

/-- Claim C9 (amended): both canonicalizers are total functions (never
    raise); the balance-pipeline canonicalizer maps a missing input to the
    empty string, while the income-statement canonicalizer propagates the
    missing value unchanged. -/
theorem normalizar_nombre_null_behavior :
    normalizar_nombre none = [] ∧ normalizar_nombre_cooperativa none = none := by
  exact ⟨rfl, rfl⟩

/-- Claim C10: the account-level function is total over all inputs with
    values in 0..5: a missing code maps to 0 and a present code is
    classified by the length of its stripped string, lengths 1 and 2 to
    levels 1 and 2, lengths 3 and 4 to level 3, lengths 5 and 6 to
    level 4, and greater lengths to level 5. -/
theorem calcular_nivel_spec :
    calcular_nivel none = 0
    ∧ (∀ c : PStr, calcular_nivel (some c) ≤ 5)
    ∧ (∀ c : PStr,
        ((pyStrip c).length = 1 → calcular_nivel (some c) = 1)
        ∧ ((pyStrip c).length = 2 → calcular_nivel (some c) = 2)
        ∧ ((pyStrip c).length = 3 ∨ (pyStrip c).length = 4 →
            calcular_nivel (some c) = 3)
        ∧ ((pyStrip c).length = 5 ∨ (pyStrip c).length = 6 →
            calcular_nivel (some c) = 4)
        ∧ (6 < (pyStrip c).length → calcular_nivel (some c) = 5)) := by
  refine ⟨rfl, ?_, ?_⟩
  · intro c
    simp only [calcular_nivel]
    split_ifs <;> omega
  · intro c
    refine ⟨?_, ?_, ?_, ?_, ?_⟩ <;> intro h <;> simp only [calcular_nivel] <;>
      split_ifs <;> omega

/-- Claim C10 (witness): the level function evaluated on concrete codes of
    each documented length. -/
theorem calcular_nivel_spec_witness :
    calcular_nivel (some (("1").data)) = 1
    ∧ calcular_nivel (some (("14").data)) = 2
    ∧ calcular_nivel (some (("1401").data)) = 3
    ∧ calcular_nivel (some (("140101").data)) = 4
    ∧ calcular_nivel (some (("1401011").data)) = 5 := by
  refine ⟨?_, ?_, ?_, ?_, ?_⟩
  · exact (calcular_nivel_spec.2.2 _).1 (by decide)
  · exact (calcular_nivel_spec.2.2 _).2.1 (by decide)
  · exact (calcular_nivel_spec.2.2 _).2.2.1 (Or.inr (by decide))
  · exact (calcular_nivel_spec.2.2 _).2.2.2.1 (Or.inr (by decide))
  · exact (calcular_nivel_spec.2.2 _).2.2.2.2 (by decide)

/-! ## Numeric coercion of amount fields

Translated from the value cleaning in `procesar_dataframe` (delimited-text
path) and `leer_xlsm_balance` (spreadsheet path) of
`procesar_balance_cooperativas.py`. -/

/-- True when every character of the list is an ASCII digit. -/
def allDigits (l : PStr) : Bool := l.all (fun c => c.isDigit)

/-- Value of an ASCII digit string read in base 10. -/
def digitsToNat (l : PStr) : Nat :=
  l.foldl (fun a c => 10 * a + (c.toNat - 48)) 0

/-- Split a string at its first dot, returning the part before it and,
    when a dot exists, the part after it. -/
def breakDot : PStr → PStr × Option PStr
  | [] => ([], none)
  | c :: r =>
    if c = '.' then ([], some r)
    else
      let p := breakDot r
      (c :: p.1, p.2)

/-- Model of `pd.to_numeric(..., errors="coerce")` on a string cell for the
    plain decimal notation found in the source extracts: optional sign,
    digits, optional fractional part; anything else (including a decimal
    comma) coerces to a missing value. -/
def parseNum (s0 : PStr) : Option Rat :=
  let s := pyStrip s0
  let sgn : Int := match s with
    | '-' :: _ => -1
    | _ => 1
  let s1 : PStr := match s with
    | '-' :: r => r
    | '+' :: r => r
    | _ => s
  match breakDot s1 with
  | (ip, none) =>
    if ip ≠ [] ∧ allDigits ip then some ((sgn * (digitsToNat ip : Int) : Int) : Rat)
    else none
  | (ip, some fp) =>
    if (ip ≠ [] ∨ fp ≠ []) ∧ allDigits ip ∧ allDigits fp then
      some ((sgn : Rat) *
        ((digitsToNat ip : Rat) + (digitsToNat fp : Rat) / ((10 : Rat) ^ fp.length)))
    else none

/-- Delimited-text path amount cleaning: every comma is replaced by a dot,
    then the value is coerced, and a failed coercion becomes zero. -/
def limpiar_valor_csv (s : PStr) : Rat :=
  (parseNum (pyReplace ([',']) (['.']) s)).getD 0

/-- Cell of the wide spreadsheet table: either an already numeric cell or a
    text cell. -/
inductive CellVal where
  | num (q : Rat)
  | str (s : PStr)
deriving DecidableEq

/-- Model of `pd.to_numeric(..., errors="coerce")` on a spreadsheet cell. -/
def toNumericCell : CellVal → Option Rat
  | CellVal.num q => some q
  | CellVal.str s => parseNum s

/-- Spreadsheet path amount cleaning: direct coercion with zero fallback;
    note there is no comma handling on this path. -/
def limpiar_valor_xlsm (v : CellVal) : Rat :=
  (toNumericCell v).getD 0

/-! ## Claim C8 -/

/-- Claim C8 (counterexample): on the spreadsheet path a decimal-comma
    value is not comma-stripped: it coerces to zero, while the
    delimited-text path turns the same text into 1000.50. -/
theorem valor_xlsm_comma_not_stripped :
    limpiar_valor_xlsm (CellVal.str (("1000,50").data)) = 0
    ∧ limpiar_valor_csv (("1000,50").data) = (2001 / 2 : Rat)
    ∧ (0 : Rat) ≠ (2001 / 2 : Rat) := by
  refine ⟨rfl, ?_, by norm_num⟩
  have h : parseNum (pyReplace ([',']) (['.']) (("1000,50").data))
      = some (((1 : Int) : Rat) *
          (((1000 : Nat) : Rat) + ((50 : Nat) : Rat) / ((10 : Rat) ^ (2 : Nat)))) := rfl
  simp only [limpiar_valor_csv, h, Option.getD_some]
  norm_num

/-- Claim C8 (amended): both paths coerce every unparseable value to zero
    and never leave a missing value, but only the delimited-text path
    replaces decimal commas by dots before coercing; the spreadsheet path
    coerces directly, keeps already numeric cells unchanged, and sends
    decimal-comma text to zero. -/
theorem valores_coercion_spec :
    (∀ s : PStr, parseNum (pyReplace ([',']) (['.']) s) = none →
      limpiar_valor_csv s = 0)
    ∧ (∀ s : PStr, parseNum s = none → limpiar_valor_xlsm (CellVal.str s) = 0)
    ∧ (∀ q : Rat, limpiar_valor_xlsm (CellVal.num q) = q)
    ∧ limpiar_valor_csv (("1000,50").data) = (2001 / 2 : Rat)
    ∧ limpiar_valor_xlsm (CellVal.str (("1000.50").data)) = (2001 / 2 : Rat) := by
  have h1 : parseNum (pyReplace ([',']) (['.']) (("1000,50").data))
      = some (((1 : Int) : Rat) *
          (((1000 : Nat) : Rat) + ((50 : Nat) : Rat) / ((10 : Rat) ^ (2 : Nat)))) := rfl
  have h2 : parseNum (("1000.50").data)
      = some (((1 : Int) : Rat) *
          (((1000 : Nat) : Rat) + ((50 : Nat) : Rat) / ((10 : Rat) ^ (2 : Nat)))) := rfl
  refine ⟨?_, ?_, ?_, ?_, ?_⟩
  · intro s h
    simp only [limpiar_valor_csv, h, Option.getD_none]
  · intro s h
    simp only [limpiar_valor_xlsm, toNumericCell, h, Option.getD_none]
  · intro q
    rfl
  · simp only [limpiar_valor_csv, h1, Option.getD_some]
    norm_num
  · simp only [limpiar_valor_xlsm, toNumericCell, h2, Option.getD_some]
    norm_num

/-- Claim C8 (witness): the zero fallback evaluated on concrete
    unparseable inputs on each path. -/
theorem valores_coercion_spec_witness :
    limpiar_valor_csv (("N/D").data) = 0
    ∧ limpiar_valor_xlsm (CellVal.str (("n.d.").data)) = 0 := by
  exact ⟨valores_coercion_spec.1 _ (by decide),
         valores_coercion_spec.2.1 _ (by decide)⟩

/-! ## Dates and ordering infrastructure

Reporting dates are pandas timestamps; the pipeline only compares them,
takes maxima, and reads the year and month, so a calendar triple with the
lexicographic order is a faithful model. -/

/-- Reporting date: calendar triple ordered lexicographically. -/
structure Fecha where
  ano : Nat
  mes : Nat
  dia : Nat
deriving DecidableEq

/-- Lexicographic comparison of dates. -/
def Fecha.le (a b : Fecha) : Prop :=
  a.ano < b.ano ∨ (a.ano = b.ano ∧ (a.mes < b.mes ∨ (a.mes = b.mes ∧ a.dia ≤ b.dia)))

instance Fecha.decLe : DecidableRel Fecha.le := fun a b => by
  unfold Fecha.le
  exact inferInstance

theorem Fecha.le_refl_thm (a : Fecha) : Fecha.le a a := by
  unfold Fecha.le
  omega

theorem Fecha.le_trans_thm : ∀ a b c : Fecha, Fecha.le a b → Fecha.le b c → Fecha.le a c := by
  intro a b c
  unfold Fecha.le
  omega

theorem Fecha.le_antisymm_thm : ∀ a b : Fecha, Fecha.le a b → Fecha.le b a → a = b := by
  intro a b
  rcases a with ⟨a1, a2, a3⟩
  rcases b with ⟨b1, b2, b3⟩
  unfold Fecha.le
  dsimp only
  simp only [Fecha.mk.injEq]
  omega

theorem Fecha.le_total_thm : ∀ a b : Fecha, Fecha.le a b ∨ Fecha.le b a := by
  intro a b
  unfold Fecha.le
  omega

instance : LinearOrder Fecha where
  le := Fecha.le
  le_refl := Fecha.le_refl_thm
  le_trans := Fecha.le_trans_thm
  le_antisymm := Fecha.le_antisymm_thm
  le_total := Fecha.le_total_thm
  decidableLE := Fecha.decLe
  decidableEq := inferInstance

/-! ## Balance table rows and tier unification

Translated from the segment unification block of `generar_balance_parquet`
in `procesar_balance_cooperativas.py` (the same block appears in
`procesar_todos_indicadores` of `procesar_camel.py`). -/

/-- One row of the consolidated balance table (columns of
    `balance.parquet` after the `ruc` and `nivel` columns are dropped). -/
structure RowBal where
  fecha : Fecha
  segmento : PStr
  cooperativa : PStr
  codigo : PStr
  cuenta : PStr
  valor : Rat
deriving DecidableEq

/-- Row comparison used by `sort_values("fecha")`: by date only. -/
def fechaLeR (a b : RowBal) : Prop := a.fecha ≤ b.fecha

instance : DecidableRel fechaLeR := fun a b =>
  inferInstanceAs (Decidable (a.fecha ≤ b.fecha))

instance : IsTotal RowBal fechaLeR := ⟨fun a b => le_total a.fecha b.fecha⟩

instance : IsTrans RowBal fechaLeR := ⟨fun _ _ _ h1 h2 => le_trans h1 h2⟩

/-- Stable sort of the table by date, the first step of the segment
    unification block. -/
def ordenarPorFecha (l : List RowBal) : List RowBal :=
  List.insertionSort fechaLeR l

/-- Model of the `ultimo_segmento` series: the segment of the last row of
    the cooperative after the stable sort by date, i.e. what
    `sort_values("fecha").drop_duplicates(subset=["cooperativa"],
    keep="last")` retains. -/
def ultimo_segmento (l : List RowBal) (coop : PStr) : Option PStr :=
  (((ordenarPorFecha l).filter (fun r => decide (r.cooperativa = coop))).getLast?).map
    (fun r => r.segmento)

/-- Segment unification: every row takes the segment of the latest row of
    its cooperative; the `getD` default is unreachable because the mapped
    cooperative always occurs in the table. -/
def unificar_segmento (l : List RowBal) : List RowBal :=
  l.map (fun r =>
    { r with segmento := (ultimo_segmento l r.cooperativa).getD r.segmento })

/-- In a pairwise-related list every member is the last element or relates
    to it. -/
theorem rel_getLast_of_pairwise {α : Type} {r : α → α → Prop} :
    ∀ {l : List α}, l.Pairwise r → ∀ {a : α}, a ∈ l → ∀ (h : l ≠ []),
      a = l.getLast h ∨ r a (l.getLast h) := by
  intro l
  induction l with
  | nil => intro _ a ha; simp at ha
  | cons b t ih =>
    intro hp a ha h
    cases t with
    | nil =>
      simp only [List.mem_singleton] at ha
      subst ha
      left
      rfl
    | cons c t2 =>
      have hne : c :: t2 ≠ [] := List.cons_ne_nil c t2
      have hgl : (b :: c :: t2).getLast h = (c :: t2).getLast hne :=
        List.getLast_cons hne
      rcases List.mem_cons.mp ha with rfl | ha2
      · right
        rw [hgl]
        exact (List.pairwise_cons.mp hp).1 _ (List.getLast_mem hne)
      · rcases ih (List.pairwise_cons.mp hp).2 ha2 hne with h1 | h1
        · left; rw [hgl]; exact h1
        · right; rw [hgl]; exact h1

/-- For every row of the table, `ultimo_segmento` returns the segment of a
    date-maximal row of the same cooperative. -/
theorem ultimo_segmento_is_max (l : List RowBal) (r : RowBal) (hr : r ∈ l) :
    ∃ m ∈ l, m.cooperativa = r.cooperativa
      ∧ ultimo_segmento l r.cooperativa = some m.segmento
      ∧ ∀ q ∈ l, q.cooperativa = r.cooperativa → q.fecha ≤ m.fecha := by
  have hrs : r ∈ ordenarPorFecha l := (List.mem_insertionSort _).mpr hr
  have hrf : r ∈ (ordenarPorFecha l).filter (fun q => decide (q.cooperativa = r.cooperativa)) :=
    List.mem_filter.mpr ⟨hrs, by simp⟩
  set f := (ordenarPorFecha l).filter (fun q => decide (q.cooperativa = r.cooperativa)) with hfdef
  have hf : f ≠ [] := List.ne_nil_of_mem hrf
  have hm_f : f.getLast hf ∈ f := List.getLast_mem hf
  have hm_s : f.getLast hf ∈ ordenarPorFecha l := List.mem_of_mem_filter hm_f
  have hm_l : f.getLast hf ∈ l := (List.mem_insertionSort _).mp hm_s
  have hm_coop : (f.getLast hf).cooperativa = r.cooperativa := by
    have := (List.mem_filter.mp hm_f).2
    simpa using this
  refine ⟨f.getLast hf, hm_l, hm_coop, ?_, ?_⟩
  · unfold ultimo_segmento
    rw [← hfdef, List.getLast?_eq_getLast f hf]
    rfl
  · intro q hq hqc
    have hq_f : q ∈ f := by
      rw [hfdef]
      exact List.mem_filter.mpr ⟨(List.mem_insertionSort _).mpr hq, by simp [hqc]⟩
    have hsorted : (ordenarPorFecha l).Pairwise fechaLeR :=
      List.sorted_insertionSort fechaLeR l
    have hpf : f.Pairwise fechaLeR := by
      rw [hfdef]
      exact hsorted.filter _
    rcases rel_getLast_of_pairwise hpf hq_f hf with h1 | h1
    · rw [h1]
    · exact h1

/-- Synthetic table of the tier-unification test: one institution with
    tiers A, A, B on increasing dates. -/
def ejemploSegmentos : List RowBal :=
  [⟨⟨2024, 1, 31⟩, ("A").data, ("X LTDA").data, ("1").data, ("ACTIVO").data, 0⟩,
   ⟨⟨2024, 2, 29⟩, ("A").data, ("X LTDA").data, ("1").data, ("ACTIVO").data, 0⟩,
   ⟨⟨2024, 3, 31⟩, ("B").data, ("X LTDA").data, ("1").data, ("ACTIVO").data, 0⟩]

/-- Claim C2: after consolidation every row of an institution carries the
    classification tier of a chronologically latest row of that
    institution, and on the synthetic tiers A, A, B with increasing dates
    all three rows end up tagged B. -/
theorem unificar_segmento_spec :
    (∀ (l : List RowBal) (r2 : RowBal), r2 ∈ unificar_segmento l →
      ∃ m ∈ l, m.cooperativa = r2.cooperativa ∧ r2.segmento = m.segmento
        ∧ ∀ q ∈ l, q.cooperativa = r2.cooperativa → q.fecha ≤ m.fecha)
    ∧ (unificar_segmento ejemploSegmentos).map (fun r => r.segmento)
        = [("B").data, ("B").data, ("B").data] := by
  constructor
  · intro l r2 h2
    rcases List.mem_map.mp h2 with ⟨r0, hr0, heq⟩
    rcases ultimo_segmento_is_max l r0 hr0 with ⟨m, hm, hmc, hms, hmax⟩
    have hcoop2 : r2.cooperativa = r0.cooperativa := by rw [← heq]
    refine ⟨m, hm, ?_, ?_, ?_⟩
    · rw [hcoop2]; exact hmc
    · rw [← heq]; simp [hms]
    · intro q hq hqc
      rw [hcoop2] at hqc
      exact hmax q hq hqc
  · decide

/-- Claim C2 (witness): the general statement applied to the first output
    row of the synthetic table. -/
theorem unificar_segmento_spec_witness :
    ∃ m ∈ ejemploSegmentos,
      m.cooperativa = ("X LTDA").data ∧ ("B").data = m.segmento
        ∧ ∀ q ∈ ejemploSegmentos, q.cooperativa = ("X LTDA").data → q.fecha ≤ m.fecha :=
  unificar_segmento_spec.1 ejemploSegmentos
    ⟨⟨2024, 1, 31⟩, ("B").data, ("X LTDA").data, ("1").data, ("ACTIVO").data, 0⟩ (by decide)

/-! ## Indicator rows and final deduplication

Translated from the deduplication step at the end of
`procesar_todos_indicadores` in `procesar_camel.py`. -/

/-- One row of the consolidated indicator table (schema of
    `indicadores.parquet`). -/
structure RowInd where
  cooperativa : PStr
  segmento : PStr
  fecha : Fecha
  codigo : PStr
  indicador : PStr
  valor : Rat
  categoria : PStr
deriving DecidableEq

/-- Deduplication key: institution, reporting date, indicator code. -/
def claveInd (r : RowInd) : PStr × Fecha × PStr :=
  (r.cooperativa, r.fecha, r.codigo)

/-- Model of `drop_duplicates(subset=["cooperativa", "fecha", "codigo"],
    keep="last")`: a row is kept exactly when no later row shares its
    key. -/
def drop_duplicates_keep_last : List RowInd → List RowInd
  | [] => []
  | r :: rest =>
    if rest.any (fun q => decide (claveInd q = claveInd r)) then
      drop_duplicates_keep_last rest
    else
      r :: drop_duplicates_keep_last rest

/-- Two indicator rows sharing the key but with different values. -/
def ejemploDedup : List RowInd :=
  [⟨("X LTDA").data, ("SEGMENTO 1").data, ⟨2024, 1, 31⟩, ("ROE").data, ("ROE").data, 1,
    ("E - Earnings").data⟩,
   ⟨("X LTDA").data, ("SEGMENTO 1").data, ⟨2024, 1, 31⟩, ("ROE").data, ("ROE").data, 2,
    ("E - Earnings").data⟩]

/-- Claim C7: after the final deduplication the output holds, for every
    key, exactly the last-seen input row with that key (and no row when
    the key is absent); two rows sharing a key collapse to the later one. -/
theorem drop_duplicates_spec :
    (∀ (l : List RowInd) (k : PStr × Fecha × PStr),
      (drop_duplicates_keep_last l).filter (fun r => decide (claveInd r = k))
        = ((l.filter (fun r => decide (claveInd r = k))).getLast?).toList)
    ∧ drop_duplicates_keep_last ejemploDedup
        = [⟨("X LTDA").data, ("SEGMENTO 1").data, ⟨2024, 1, 31⟩, ("ROE").data, ("ROE").data, 2,
            ("E - Earnings").data⟩] := by
  constructor
  · intro l k
    induction l with
    | nil => rfl
    | cons r rest ih =>
      by_cases hdup : rest.any (fun q => decide (claveInd q = claveInd r)) = true
      · rw [drop_duplicates_keep_last, if_pos hdup, ih, List.filter_cons]
        by_cases hk : claveInd r = k
        · rw [if_pos (by simp [hk])]
          rcases List.any_eq_true.mp hdup with ⟨q, hq, hqk⟩
          have hqk2 : claveInd q = k := by
            rw [of_decide_eq_true hqk, hk]
          have hqf : q ∈ rest.filter (fun r => decide (claveInd r = k)) :=
            List.mem_filter.mpr ⟨hq, by simp [hqk2]⟩
          cases hrf : rest.filter (fun r => decide (claveInd r = k)) with
          | nil => rw [hrf] at hqf; simp at hqf
          | cons b t => rw [List.getLast?_cons_cons]
        · rw [if_neg (by simp [hk])]
      · rw [drop_duplicates_keep_last, if_neg hdup]
        have hnone : ∀ q ∈ rest, claveInd q ≠ claveInd r := by
          intro q hq
          have := List.any_eq_false.mp (Bool.not_eq_true _ |>.mp hdup) q hq
          simpa using this
        rw [List.filter_cons, List.filter_cons]
        by_cases hk : claveInd r = k
        · rw [if_pos (by simp [hk]), if_pos (by simp [hk])]
          have hempty : rest.filter (fun r => decide (claveInd r = k)) = [] := by
            rw [List.filter_eq_nil_iff]
            intro q hq
            simp only [decide_eq_true_eq]
            rw [← hk]
            exact hnone q hq
          rw [ih, hempty]
          rfl
        · rw [if_neg (by simp [hk]), if_neg (by simp [hk])]
          exact ih
  · decide

/-! ## Income statement rows and de-accumulation

Translated from `desacumular_valores` in `procesar_pyg.py`: sort by
cooperative, code and date, then a groupby over cooperative, code and
calendar year computes the previous accumulated value via `shift(1)`, and
`np.where` derives the monthly value. -/

/-- One input row of the income statement table (the columns that
    `desacumular_valores` reads). -/
structure RowPyG where
  cooperativa : PStr
  codigo : PStr
  fecha : Fecha
  valor : Rat
deriving DecidableEq

/-- Lexicographic comparison of key triples, as used by
    `sort_values(["cooperativa", "codigo", "fecha"])` and by the final
    balance sort. -/
def lex3 {α β γ : Type} [LinearOrder α] [LinearOrder β] [LinearOrder γ]
    (a b : α × β × γ) : Prop :=
  a.1 < b.1 ∨ (a.1 = b.1 ∧ (a.2.1 < b.2.1 ∨ (a.2.1 = b.2.1 ∧ a.2.2 ≤ b.2.2)))

instance {α β γ : Type} [LinearOrder α] [LinearOrder β] [LinearOrder γ] :
    DecidableRel (@lex3 α β γ _ _ _) := fun a b => by
  unfold lex3
  exact inferInstance

theorem lex3_total {α β γ : Type} [LinearOrder α] [LinearOrder β] [LinearOrder γ] :
    ∀ a b : α × β × γ, lex3 a b ∨ lex3 b a := by
  intro a b
  unfold lex3
  rcases lt_trichotomy a.1 b.1 with h | h | h
  · exact Or.inl (Or.inl h)
  · rcases lt_trichotomy a.2.1 b.2.1 with h2 | h2 | h2
    · exact Or.inl (Or.inr ⟨h, Or.inl h2⟩)
    · rcases le_total a.2.2 b.2.2 with h3 | h3
      · exact Or.inl (Or.inr ⟨h, Or.inr ⟨h2, h3⟩⟩)
      · exact Or.inr (Or.inr ⟨h.symm, Or.inr ⟨h2.symm, h3⟩⟩)
    · exact Or.inr (Or.inr ⟨h.symm, Or.inl h2⟩)
  · exact Or.inr (Or.inl h)

theorem lex3_trans {α β γ : Type} [LinearOrder α] [LinearOrder β] [LinearOrder γ] :
    ∀ a b c : α × β × γ, lex3 a b → lex3 b c → lex3 a c := by
  intro a b c hab hbc
  unfold lex3 at *
  rcases hab with h1 | ⟨e1, h1⟩
  · rcases hbc with h2 | ⟨e2, h2⟩
    · exact Or.inl (h1.trans h2)
    · exact Or.inl (by rw [← e2]; exact h1)
  · rcases hbc with h2 | ⟨e2, h2⟩
    · exact Or.inl (by rw [e1]; exact h2)
    · refine Or.inr ⟨e1.trans e2, ?_⟩
      rcases h1 with g1 | ⟨f1, g1⟩ <;> rcases h2 with g2 | ⟨f2, g2⟩
      · exact Or.inl (g1.trans g2)
      · exact Or.inl (by rw [← f2]; exact g1)
      · exact Or.inl (by rw [f1]; exact g2)
      · exact Or.inr ⟨f1.trans f2, g1.trans g2⟩

/-- Sort order of the income statement table. -/
def pygLe (a b : RowPyG) : Prop :=
  lex3 (a.cooperativa, a.codigo, a.fecha) (b.cooperativa, b.codigo, b.fecha)

instance : DecidableRel pygLe := fun a b =>
  inferInstanceAs (Decidable (lex3 _ _))

instance : IsTotal RowPyG pygLe := ⟨fun a b => lex3_total _ _⟩

instance : IsTrans RowPyG pygLe := ⟨fun _ _ _ h1 h2 => lex3_trans _ _ _ h1 h2⟩

/-- Stable sort by cooperative, code and date. -/
def ordenarPyg (l : List RowPyG) : List RowPyG :=
  List.insertionSort pygLe l

/-- Key of the `groupby(["cooperativa", "codigo", "ano"])`. -/
def clavePyG (r : RowPyG) : PStr × PStr × Nat :=
  (r.cooperativa, r.codigo, r.fecha.ano)

/-- Association list lookup used to model the per-group state of
    `shift(1)`; the most recent binding wins. -/
def lookupA : List ((PStr × PStr × Nat) × Rat) → PStr × PStr × Nat → Option Rat
  | [], _ => none
  | (k, v) :: rest, key => if key = k then some v else lookupA rest key

/-- Scanner of `groupby([...]).shift(1)`: each row receives the value of
    the most recent earlier row with the same key, then records its own. -/
def shiftPrevGo : List RowPyG → List ((PStr × PStr × Nat) × Rat) → List (Option Rat)
  | [], _ => []
  | r :: rest, m =>
    lookupA m (clavePyG r) :: shiftPrevGo rest ((clavePyG r, r.valor) :: m)

/-- The `valor_anterior` column. -/
def shiftPrev (l : List RowPyG) : List (Option Rat) :=
  shiftPrevGo l []

/-- One output row of `desacumular_valores`. -/
structure RowPyGD where
  cooperativa : PStr
  codigo : PStr
  fecha : Fecha
  valor_acumulado : Rat
  valor_anterior : Option Rat
  valor_mes : Rat
deriving DecidableEq

/-- De-accumulation: after the sort, each row pairs with its previous
    same-year group value; January rows and rows without a previous value
    keep the accumulated value, all others subtract it. -/
def desacumular_valores (l : List RowPyG) : List RowPyGD :=
  ((ordenarPyg l).zip (shiftPrev (ordenarPyg l))).map (fun p =>
    { cooperativa := p.1.cooperativa
      codigo := p.1.codigo
      fecha := p.1.fecha
      valor_acumulado := p.1.valor
      valor_anterior := p.2
      valor_mes :=
        if p.1.fecha.mes = 1 ∨ p.2 = none then p.1.valor
        else p.1.valor - p.2.getD 0 })

/-- Specification of the previous-period value: the accumulated value of
    the immediately preceding record of the same cooperative, code and
    calendar year in the sorted table. -/
def prevAnterior (s : List RowPyG) (i : Nat) (r : RowPyG) : Option Rat :=
  (((s.take i).filter (fun q => decide (clavePyG q = clavePyG r))).getLast?).map
    (fun q => q.valor)

/-- The scanner computes exactly the last earlier same-key value, with the
    incoming accumulator as fallback. -/
theorem shiftPrevGo_get :
    ∀ (l : List RowPyG) (m : List ((PStr × PStr × Nat) × Rat)) (i : Nat) (r : RowPyG),
      l[i]? = some r →
      (shiftPrevGo l m)[i]?
        = some (Option.or (prevAnterior l i r) (lookupA m (clavePyG r))) := by
  intro l
  induction l with
  | nil => intro m i r h; simp at h
  | cons a t ih =>
    intro m i r h
    cases i with
    | zero =>
      rw [List.getElem?_cons_zero] at h
      injection h with h
      subst h
      simp [shiftPrevGo, prevAnterior, Option.none_or]
    | succ j =>
      rw [List.getElem?_cons_succ] at h
      rw [shiftPrevGo, List.getElem?_cons_succ, ih _ j r h]
      unfold prevAnterior
      rw [List.take_succ_cons, List.filter_cons]
      by_cases hk : clavePyG a = clavePyG r
      · rw [if_pos (by simp [hk]), lookupA, if_pos hk.symm]
        cases hF : (t.take j).filter (fun q => decide (clavePyG q = clavePyG r)) with
        | nil => simp [Option.none_or]
        | cons b t2 => rw [List.getLast?_cons_cons]; cases hL : (b :: t2).getLast? with
          | none => simp at hL
          | some q => simp [Option.or]
      · rw [if_neg (by simp [hk]), lookupA, if_neg (fun he => hk he.symm)]

/-- Synthetic accumulated series [100, 250, 400] for January, February and
    March of one year, one cooperative and one account code. -/
def ejemploPyg : List RowPyG :=
  [⟨("X LTDA").data, ("5").data, ⟨2024, 1, 31⟩, 100⟩,
   ⟨("X LTDA").data, ("5").data, ⟨2024, 2, 29⟩, 250⟩,
   ⟨("X LTDA").data, ("5").data, ⟨2024, 3, 31⟩, 400⟩]


/-- Claim C1: in the de-accumulated table each output row keeps the
    accumulated value of its sorted-input row, records as previous value
    the accumulated value of the immediately preceding same-year record of
    its cooperative and code, and its monthly value is the accumulated
    value when the month is January or no such preceding record exists,
    and the difference with the preceding accumulated value otherwise; the
    synthetic series [100, 250, 400] yields monthly values
    [100, 150, 150]. -/
theorem desacumular_valores_spec :
    (∀ (l : List RowPyG) (i : Nat) (d : RowPyGD),
      (desacumular_valores l)[i]? = some d →
      ∃ r : RowPyG, (ordenarPyg l)[i]? = some r
        ∧ d.cooperativa = r.cooperativa ∧ d.codigo = r.codigo ∧ d.fecha = r.fecha
        ∧ d.valor_acumulado = r.valor
        ∧ d.valor_anterior = prevAnterior (ordenarPyg l) i r
        ∧ d.valor_mes =
            (if r.fecha.mes = 1 ∨ prevAnterior (ordenarPyg l) i r = none
             then r.valor
             else r.valor - (prevAnterior (ordenarPyg l) i r).getD 0))
    ∧ (desacumular_valores ejemploPyg).map (fun d => d.valor_mes)
        = [100, 150, 150] := by
  constructor
  · intro l i d hd
    unfold desacumular_valores at hd
    rw [List.getElem?_map, Option.map_eq_some'] at hd
    obtain ⟨p, hp, hpd⟩ := hd
    obtain ⟨h1, h2⟩ := List.getElem?_zip_eq_some.mp hp
    have hprev : p.2 = prevAnterior (ordenarPyg l) i p.1 := by
      have hgo := shiftPrevGo_get (ordenarPyg l) [] i p.1 h1
      unfold shiftPrev at h2
      rw [hgo] at h2
      injection h2 with h2
      rw [← h2, lookupA, Option.or_none]
    subst hpd
    refine ⟨p.1, h1, rfl, rfl, rfl, rfl, hprev, ?_⟩
    show (if p.1.fecha.mes = 1 ∨ p.2 = none then p.1.valor
          else p.1.valor - p.2.getD 0) = _
    rw [hprev]
  · have h : (desacumular_valores ejemploPyg).map (fun d => d.valor_mes)
        = [100, (250 : Rat) - 100, (400 : Rat) - 250] := rfl
    rw [h]
    norm_num

/-- Claim C1 (witness): the general statement applied to the first row of
    the synthetic series. -/
theorem desacumular_valores_spec_witness :
    ∃ r : RowPyG, (ordenarPyg ejemploPyg)[0]? = some r
      ∧ ("X LTDA").data = r.cooperativa ∧ ("5").data = r.codigo
      ∧ (⟨2024, 1, 31⟩ : Fecha) = r.fecha
      ∧ (100 : Rat) = r.valor
      ∧ (none : Option Rat) = prevAnterior (ordenarPyg ejemploPyg) 0 r
      ∧ (100 : Rat) =
          (if r.fecha.mes = 1 ∨ prevAnterior (ordenarPyg ejemploPyg) 0 r = none
           then r.valor
           else r.valor - (prevAnterior (ordenarPyg ejemploPyg) 0 r).getD 0) :=
  desacumular_valores_spec.1 ejemploPyg 0
    ⟨("X LTDA").data, ("5").data, ⟨2024, 1, 31⟩, 100, none, 100⟩ (by decide)

/-! ## Trailing 12 month rolling sum

Translated from `calcular_suma_movil_12m` in `procesar_pyg.py`: after the
same sort, a groupby over cooperative and code applies
`rolling(window=12, min_periods=12).sum()` to the monthly value. -/

/-- Sort order on de-accumulated rows, same keys as `ordenarPyg`. -/
def pygDLe (a b : RowPyGD) : Prop :=
  lex3 (a.cooperativa, a.codigo, a.fecha) (b.cooperativa, b.codigo, b.fecha)

instance : DecidableRel pygDLe := fun a b =>
  inferInstanceAs (Decidable (lex3 _ _))

instance : IsTotal RowPyGD pygDLe := ⟨fun a b => lex3_total _ _⟩

instance : IsTrans RowPyGD pygDLe := ⟨fun _ _ _ h1 h2 => lex3_trans _ _ _ h1 h2⟩

/-- Key of the `groupby(["cooperativa", "codigo"])` of the rolling sum. -/
def claveGrupo (r : RowPyGD) : PStr × PStr :=
  (r.cooperativa, r.codigo)

/-- Association list lookup of the per-group history (newest first); an
    unseen group has the empty history. -/
def lookupH : List ((PStr × PStr) × List Rat) → PStr × PStr → List Rat
  | [], _ => []
  | (k, v) :: rest, key => if key = k then v else lookupH rest key

/-- Scanner of the rolling window: each row extends its group history with
    its monthly value and emits the sum of the newest 12 entries once the
    history holds at least 12. -/
def rollingGo : List RowPyGD → List ((PStr × PStr) × List Rat) → List (Option Rat)
  | [], _ => []
  | r :: rest, m =>
    (if 12 ≤ (r.valor_mes :: lookupH m (claveGrupo r)).length then
      some (((r.valor_mes :: lookupH m (claveGrupo r)).take 12).sum)
     else none)
      :: rollingGo rest ((claveGrupo r, r.valor_mes :: lookupH m (claveGrupo r)) :: m)

/-- One output row of `calcular_suma_movil_12m`. -/
structure RowPyGF where
  cooperativa : PStr
  codigo : PStr
  fecha : Fecha
  valor_acumulado : Rat
  valor_anterior : Option Rat
  valor_mes : Rat
  valor_12m : Option Rat
deriving DecidableEq

/-- Rolling 12 month sum of the monthly value within each cooperative and
    code group, absent until 12 observations exist. -/
def calcular_suma_movil_12m (l : List RowPyGD) : List RowPyGF :=
  ((List.insertionSort pygDLe l).zip (rollingGo (List.insertionSort pygDLe l) [])).map
    (fun p =>
      { cooperativa := p.1.cooperativa
        codigo := p.1.codigo
        fecha := p.1.fecha
        valor_acumulado := p.1.valor_acumulado
        valor_anterior := p.1.valor_anterior
        valor_mes := p.1.valor_mes
        valor_12m := p.2 })

/-- Specification of the rolling window: the monthly values of the rows of
    the same group among the first `i + 1` sorted rows, newest first. -/
def ventana (s : List RowPyGD) (i : Nat) (r : RowPyGD) : List Rat :=
  (((s.take (i + 1)).filter (fun q => decide (claveGrupo q = claveGrupo r))).map
    (fun q => q.valor_mes)).reverse

/-- The scanner history at each row equals the reversed monthly values of
    its group so far, extended by the incoming accumulator. -/
theorem rollingGo_get :
    ∀ (l : List RowPyGD) (m : List ((PStr × PStr) × List Rat)) (i : Nat) (r : RowPyGD),
      l[i]? = some r →
      (rollingGo l m)[i]?
        = some (if 12 ≤ (ventana l i r ++ lookupH m (claveGrupo r)).length then
            some (((ventana l i r ++ lookupH m (claveGrupo r)).take 12).sum)
          else none) := by
  intro l
  induction l with
  | nil => intro m i r h; simp at h
  | cons a t ih =>
    intro m i r h
    cases i with
    | zero =>
      rw [List.getElem?_cons_zero] at h
      injection h with h
      subst h
      rw [rollingGo, List.getElem?_cons_zero]
      simp [ventana, List.filter_cons]
    | succ j =>
      rw [List.getElem?_cons_succ] at h
      rw [rollingGo, List.getElem?_cons_succ, ih _ j r h]
      by_cases hk : claveGrupo a = claveGrupo r
      · have hlook : lookupH ((claveGrupo a, a.valor_mes :: lookupH m (claveGrupo a)) :: m)
            (claveGrupo r) = a.valor_mes :: lookupH m (claveGrupo r) := by
          rw [lookupH, if_pos hk.symm, hk]
        have hv : ventana (a :: t) (j + 1) r = ventana t j r ++ [a.valor_mes] := by
          unfold ventana
          rw [List.take_succ_cons, List.filter_cons, if_pos (by simp [hk])]
          simp
        rw [hlook, hv, List.append_assoc]
        simp
      · have hlook : lookupH ((claveGrupo a, a.valor_mes :: lookupH m (claveGrupo a)) :: m)
            (claveGrupo r) = lookupH m (claveGrupo r) := by
          rw [lookupH, if_neg (fun he => hk he.symm)]
        have hv : ventana (a :: t) (j + 1) r = ventana t j r := by
          unfold ventana
          rw [List.take_succ_cons, List.filter_cons, if_neg (by simp [hk])]
        rw [hlook, hv]

/-- Synthetic de-accumulated series: 12 monthly values 1..12 (summing to
    78) for one cooperative, code and year. -/
def ejemplo12m : List RowPyGD :=
  [⟨("X LTDA").data, ("5").data, ⟨2024, 1, 28⟩, 0, none, 1⟩,
   ⟨("X LTDA").data, ("5").data, ⟨2024, 2, 28⟩, 0, none, 2⟩,
   ⟨("X LTDA").data, ("5").data, ⟨2024, 3, 28⟩, 0, none, 3⟩,
   ⟨("X LTDA").data, ("5").data, ⟨2024, 4, 28⟩, 0, none, 4⟩,
   ⟨("X LTDA").data, ("5").data, ⟨2024, 5, 28⟩, 0, none, 5⟩,
   ⟨("X LTDA").data, ("5").data, ⟨2024, 6, 28⟩, 0, none, 6⟩,
   ⟨("X LTDA").data, ("5").data, ⟨2024, 7, 28⟩, 0, none, 7⟩,
   ⟨("X LTDA").data, ("5").data, ⟨2024, 8, 28⟩, 0, none, 8⟩,
   ⟨("X LTDA").data, ("5").data, ⟨2024, 9, 28⟩, 0, none, 9⟩,
   ⟨("X LTDA").data, ("5").data, ⟨2024, 10, 28⟩, 0, none, 10⟩,
   ⟨("X LTDA").data, ("5").data, ⟨2024, 11, 28⟩, 0, none, 11⟩,
   ⟨("X LTDA").data, ("5").data, ⟨2024, 12, 28⟩, 0, none, 12⟩]

/-- Claim C4: each output row of the rolling computation carries, as
    trailing value, the sum of the newest 12 monthly values of its
    cooperative and code group when at least 12 observations exist so far,
    and no value before that; a 12 observation series summing to 78 yields
    the trailing value 78 exactly on the 12th row. -/
theorem calcular_suma_movil_12m_spec :
    (∀ (l : List RowPyGD) (i : Nat) (f : RowPyGF),
      (calcular_suma_movil_12m l)[i]? = some f →
      ∃ r : RowPyGD, (List.insertionSort pygDLe l)[i]? = some r
        ∧ f.cooperativa = r.cooperativa ∧ f.codigo = r.codigo ∧ f.fecha = r.fecha
        ∧ f.valor_acumulado = r.valor_acumulado
        ∧ f.valor_anterior = r.valor_anterior
        ∧ f.valor_mes = r.valor_mes
        ∧ f.valor_12m =
            (if 12 ≤ (ventana (List.insertionSort pygDLe l) i r).length
             then some (((ventana (List.insertionSort pygDLe l) i r).take 12).sum)
             else none))
    ∧ (calcular_suma_movil_12m ejemplo12m).map (fun f => f.valor_12m)
        = [none, none, none, none, none, none, none, none, none, none, none,
           some 78] := by
  constructor
  · intro l i f hf
    unfold calcular_suma_movil_12m at hf
    rw [List.getElem?_map, Option.map_eq_some'] at hf
    obtain ⟨p, hp, hpf⟩ := hf
    obtain ⟨h1, h2⟩ := List.getElem?_zip_eq_some.mp hp
    have hroll : p.2
        = (if 12 ≤ (ventana (List.insertionSort pygDLe l) i p.1).length
           then some (((ventana (List.insertionSort pygDLe l) i p.1).take 12).sum)
           else none) := by
      have hgo := rollingGo_get (List.insertionSort pygDLe l) [] i p.1 h1
      rw [hgo] at h2
      injection h2 with h2
      rw [← h2, lookupH, List.append_nil]
    subst hpf
    exact ⟨p.1, h1, rfl, rfl, rfl, rfl, rfl, rfl, hroll⟩
  · have h : (calcular_suma_movil_12m ejemplo12m).map (fun f => f.valor_12m)
        = [none, none, none, none, none, none, none, none, none, none, none,
           some (([12, 11, 10, 9, 8, 7, 6, 5, 4, 3, 2, 1] : List Rat).sum)] := rfl
    rw [h]
    norm_num [List.sum_cons, List.sum_nil]

/-- Claim C4 (witness): the general statement applied to the first row of
    the synthetic series. -/
theorem calcular_suma_movil_12m_spec_witness :
    ∃ r : RowPyGD, (List.insertionSort pygDLe ejemplo12m)[0]? = some r
      ∧ ("X LTDA").data = r.cooperativa ∧ ("5").data = r.codigo
      ∧ (⟨2024, 1, 28⟩ : Fecha) = r.fecha
      ∧ (0 : Rat) = r.valor_acumulado
      ∧ (none : Option Rat) = r.valor_anterior
      ∧ (1 : Rat) = r.valor_mes
      ∧ (none : Option Rat) =
          (if 12 ≤ (ventana (List.insertionSort pygDLe ejemplo12m) 0 r).length
           then some (((ventana (List.insertionSort pygDLe ejemplo12m) 0 r).take 12).sum)
           else none) :=
  calcular_suma_movil_12m_spec.1 ejemplo12m 0
    ⟨("X LTDA").data, ("5").data, ⟨2024, 1, 28⟩, 0, none, 1, none⟩ (by decide)

/-! ## Balance consolidation

Translated from `generar_balance_parquet` in
`procesar_balance_cooperativas.py`: incremental mode loads the previous
table, keeps only containers of its maximal year, discards rows at or
before the previous maximal date, concatenates, unifies segments, sorts
and resets the index. Containers are modelled by their declared year and
the processed rows they yield. -/

/-- Final sort order `sort_values(["fecha", "segmento", "cooperativa",
    "codigo"])`. -/
def balLe (a b : RowBal) : Prop :=
  a.fecha < b.fecha
    ∨ (a.fecha = b.fecha
        ∧ lex3 (a.segmento, a.cooperativa, a.codigo) (b.segmento, b.cooperativa, b.codigo))

instance : DecidableRel balLe := fun a b => by
  unfold balLe
  exact inferInstance

instance : IsTotal RowBal balLe := by
  refine ⟨fun a b => ?_⟩
  unfold balLe
  rcases lt_trichotomy a.fecha b.fecha with h | h | h
  · exact Or.inl (Or.inl h)
  · rcases lex3_total (a.segmento, a.cooperativa, a.codigo)
      (b.segmento, b.cooperativa, b.codigo) with h2 | h2
    · exact Or.inl (Or.inr ⟨h, h2⟩)
    · exact Or.inr (Or.inr ⟨h.symm, h2⟩)
  · exact Or.inr (Or.inl h)

instance : IsTrans RowBal balLe := by
  refine ⟨fun a b c hab hbc => ?_⟩
  unfold balLe at *
  rcases hab with h1 | ⟨e1, h1⟩
  · rcases hbc with h2 | ⟨e2, h2⟩
    · exact Or.inl (h1.trans h2)
    · exact Or.inl (by rw [← e2]; exact h1)
  · rcases hbc with h2 | ⟨e2, h2⟩
    · exact Or.inl (by rw [e1]; exact h2)
    · exact Or.inr ⟨e1.trans e2, lex3_trans _ _ _ h1 h2⟩

/-- The final sort of the consolidated table. -/
def sortBalance (l : List RowBal) : List RowBal :=
  List.insertionSort balLe l

/-- The tail of the pipeline applied to the concatenated table: segment
    unification followed by the final sort (the index reset and the
    categorical re-typing do not change the rows). -/
def postprocesar (l : List RowBal) : List RowBal :=
  sortBalance (unificar_segmento l)

/-- Maximum reporting date of a table, `df["fecha"].max()`. -/
def maxFecha : List RowBal → Option Fecha
  | [] => none
  | r :: rest =>
    match maxFecha rest with
    | none => some r.fecha
    | some m => some (max r.fecha m)

/-- A source container: the year declared in its file name and the
    processed rows it yields. -/
structure Zip where
  ano : Nat
  rows : List RowBal
deriving DecidableEq

/-- The consolidation: with a previous table, only containers of at least
    its maximal year are read and only rows strictly after the maximal
    date survive; containers whose surviving rows are empty are skipped;
    when nothing survives the previous table passes through; without a
    previous table every container is read whole, and no container at all
    is the fatal case. -/
def generar_balance (prev : Option (List RowBal)) (zips : List Zip) : Option (List RowBal) :=
  match prev with
  | some hist =>
    match maxFecha hist with
    | none => some (postprocesar hist)
    | some fmax =>
      if (((zips.filter (fun z => decide (fmax.ano ≤ z.ano))).map
            (fun z => z.rows.filter (fun r => decide (fmax < r.fecha)))).filter
            (fun d => decide (d ≠ []))) = [] then
        some (postprocesar hist)
      else
        some (postprocesar (hist ++ (((zips.filter (fun z => decide (fmax.ano ≤ z.ano))).map
            (fun z => z.rows.filter (fun r => decide (fmax < r.fecha)))).filter
            (fun d => decide (d ≠ []))).flatten))
  | none =>
    if zips = [] then none
    else some (postprocesar ((zips.map (fun z => z.rows)).flatten))

/-- After segment unification, rows of the same cooperative carry the same
    segment. -/
theorem segmento_unico (l : List RowBal) (r q : RowBal)
    (hr : r ∈ unificar_segmento l) (hq : q ∈ unificar_segmento l)
    (hc : r.cooperativa = q.cooperativa) : r.segmento = q.segmento := by
  obtain ⟨r0, hr0, hre⟩ := List.mem_map.mp hr
  obtain ⟨q0, hq0, hqe⟩ := List.mem_map.mp hq
  have hrc : r.cooperativa = r0.cooperativa := by rw [← hre]
  have hqc : q.cooperativa = q0.cooperativa := by rw [← hqe]
  have hc0 : r0.cooperativa = q0.cooperativa := by rw [← hrc, hc, hqc]
  obtain ⟨m, _, _, hms, _⟩ := ultimo_segmento_is_max l r0 hr0
  have hrs : r.segmento = m.segmento := by
    rw [← hre]
    show (ultimo_segmento l r0.cooperativa).getD r0.segmento = m.segmento
    rw [hms]
    rfl
  have hqs : q.segmento = m.segmento := by
    rw [← hqe]
    show (ultimo_segmento l q0.cooperativa).getD q0.segmento = m.segmento
    rw [← hc0, hms]
    rfl
  rw [hrs, hqs]

/-- On a table whose cooperatives already have unique segments, the
    unification is the identity. -/
theorem unificar_segmento_fix (l : List RowBal)
    (hprop : ∀ r q, r ∈ l → q ∈ l → r.cooperativa = q.cooperativa →
      r.segmento = q.segmento) :
    unificar_segmento l = l := by
  unfold unificar_segmento
  have hpt : ∀ r ∈ l,
      ({ r with segmento := (ultimo_segmento l r.cooperativa).getD r.segmento } : RowBal)
        = r := by
    intro r hr
    obtain ⟨m, hm, hmc, hms, _⟩ := ultimo_segmento_is_max l r hr
    have : m.segmento = r.segmento := hprop m r hm hr hmc
    rw [hms]
    simp [this]
  calc l.map (fun r =>
        { r with segmento := (ultimo_segmento l r.cooperativa).getD r.segmento })
      = l.map id := List.map_congr_left hpt
    _ = l := List.map_id l

/-- Applying the consolidation tail twice equals applying it once. -/
theorem postprocesar_fix (X : List RowBal) :
    postprocesar (postprocesar X) = postprocesar X := by
  have hprop : ∀ r q, r ∈ postprocesar X → q ∈ postprocesar X →
      r.cooperativa = q.cooperativa → r.segmento = q.segmento := by
    intro r q hr hq hc
    have hr2 : r ∈ unificar_segmento X := (List.mem_insertionSort balLe).mp hr
    have hq2 : q ∈ unificar_segmento X := (List.mem_insertionSort balLe).mp hq
    exact segmento_unico X r q hr2 hq2 hc
  have hA : unificar_segmento (postprocesar X) = postprocesar X :=
    unificar_segmento_fix _ hprop
  have hB : List.Sorted balLe (postprocesar X) :=
    List.sorted_insertionSort balLe (unificar_segmento X)
  show sortBalance (unificar_segmento (postprocesar X)) = postprocesar X
  rw [hA]
  exact hB.insertionSort_eq

/-- Every successful consolidation output is a `postprocesar` image. -/
theorem generar_eq_postprocesar {prev : Option (List RowBal)} {zips : List Zip}
    {T1 : List RowBal} (h : generar_balance prev zips = some T1) :
    ∃ X, T1 = postprocesar X := by
  cases prev with
  | none =>
    simp only [generar_balance] at h
    by_cases hz : zips = []
    · rw [if_pos hz] at h
      exact absurd h (by simp)
    · rw [if_neg hz] at h
      injection h with h
      exact ⟨_, h.symm⟩
  | some hist =>
    simp only [generar_balance] at h
    cases hmf : maxFecha hist with
    | none =>
      rw [hmf] at h
      dsimp only at h
      injection h with h
      exact ⟨_, h.symm⟩
    | some fmax =>
      rw [hmf] at h
      dsimp only at h
      by_cases hn : (((zips.filter (fun z => decide (fmax.ano ≤ z.ano))).map
            (fun z => z.rows.filter (fun r => decide (fmax < r.fecha)))).filter
            (fun d => decide (d ≠ []))) = []
      · rw [if_pos hn] at h
        injection h with h
        exact ⟨_, h.symm⟩
      · rw [if_neg hn] at h
        injection h with h
        exact ⟨_, h.symm⟩

/-- Claim C3: re-running the consolidation on its own output with no
    container holding rows strictly after the previous maximal date
    reproduces the output exactly: late rows are discarded, nothing
    survives, and the tier overwrite and sort are idempotent on a
    consolidated table. -/
theorem generar_balance_idempotente :
    ∀ (prev : Option (List RowBal)) (zips zips2 : List Zip)
      (T1 : List RowBal) (fmax : Fecha),
      generar_balance prev zips = some T1 →
      maxFecha T1 = some fmax →
      (∀ z ∈ zips2, fmax.ano ≤ z.ano → ∀ r ∈ z.rows, r.fecha ≤ fmax) →
      generar_balance (some T1) zips2 = some T1 := by
  intro prev zips zips2 T1 fmax h1 h2 h3
  obtain ⟨X, hX⟩ := generar_eq_postprocesar h1
  have hnuevos : (((zips2.filter (fun z => decide (fmax.ano ≤ z.ano))).map
      (fun z => z.rows.filter (fun r => decide (fmax < r.fecha)))).filter
      (fun d => decide (d ≠ []))) = [] := by
    rw [List.filter_eq_nil_iff]
    intro d hd
    rcases List.mem_map.mp hd with ⟨z, hz, hdz⟩
    rcases List.mem_filter.mp hz with ⟨hz2, hzc⟩
    have hano : fmax.ano ≤ z.ano := of_decide_eq_true hzc
    have hrows : z.rows.filter (fun r => decide (fmax < r.fecha)) = [] := by
      rw [List.filter_eq_nil_iff]
      intro r hr
      simp only [decide_eq_true_eq]
      exact not_lt.mpr (h3 z hz2 hano r hr)
    rw [← hdz, hrows]
    simp
  simp only [generar_balance]
  rw [h2]
  dsimp only
  rw [if_pos hnuevos, hX, postprocesar_fix]

/-- A concrete container: year 2024, two rows of one cooperative whose
    segment changes from A to B. -/
def zipEjemplo : Zip :=
  ⟨2024, [⟨⟨2024, 1, 31⟩, ("A").data, ("X LTDA").data, ("1").data, ("ACTIVO").data, 0⟩,
          ⟨⟨2024, 2, 29⟩, ("B").data, ("X LTDA").data, ("1").data, ("ACTIVO").data, 0⟩]⟩

/-- The consolidated output of the container above. -/
def balanceEjemplo : List RowBal :=
  [⟨⟨2024, 1, 31⟩, ("B").data, ("X LTDA").data, ("1").data, ("ACTIVO").data, 0⟩,
   ⟨⟨2024, 2, 29⟩, ("B").data, ("X LTDA").data, ("1").data, ("ACTIVO").data, 0⟩]

/-- Claim C3 (witness): the idempotence theorem applied to the concrete
    first run on one container and a second run on the same container. -/
theorem generar_balance_idempotente_witness :
    generar_balance (some balanceEjemplo) [zipEjemplo] = some balanceEjemplo :=
  generar_balance_idempotente none [zipEjemplo] [zipEjemplo] balanceEjemplo
    ⟨2024, 2, 29⟩ (by decide) (by decide) (by decide)

/-! ## Account hierarchy

Translated from `obtener_jerarquia_cuentas` in `pages/2_Balance_General.py`:
distinct (code, label) pairs are filtered to numeric codes, split by code
length into levels, and nested dictionaries are built level by level,
attaching a code only when its parent prefix already exists. -/

/-- Level-3 node: label and level-4 leaves (code to label). -/
structure Nodo3 where
  nombre : PStr
  subcuentas : List (PStr × PStr)
deriving DecidableEq

/-- Level-2 node: label and level-3 children. -/
structure Nodo2 where
  nombre : PStr
  subcuentas : List (PStr × Nodo3)
deriving DecidableEq

/-- Level-1 node: label and level-2 children. -/
structure Nodo1 where
  nombre : PStr
  subcuentas : List (PStr × Nodo2)
deriving DecidableEq

/-- The hierarchy dictionary keyed by 1-digit codes. -/
abbrev Jerarquia := List (PStr × Nodo1)

/-- Dictionary lookup (first binding wins, as in a Python dict where keys
    are unique). -/
def lookupJ {V : Type} : List (PStr × V) → PStr → Option V
  | [], _ => none
  | (k0, v0) :: rest, k => if k = k0 then some v0 else lookupJ rest k

/-- Dictionary write `d[k] = v`: overwrite in place or append. -/
def upsertA {V : Type} : List (PStr × V) → PStr → V → List (PStr × V)
  | [], k, v => [(k, v)]
  | (k0, v0) :: rest, k, v =>
    if k = k0 then (k, v) :: rest else (k0, v0) :: upsertA rest k v

/-- In-place modification of the value at a key. -/
def updateJ {V : Type} : List (PStr × V) → PStr → (V → V) → List (PStr × V)
  | [], _, _ => []
  | (k0, v0) :: rest, k, f =>
    if k = k0 then (k0, f v0) :: rest else (k0, v0) :: updateJ rest k f

/-- Deduplication of the (code, label) pairs, `drop_duplicates()` keeping
    first occurrences. -/
def dedupKeepFirstGo : List (PStr × PStr) → List (PStr × PStr) → List (PStr × PStr)
  | [], _ => []
  | p :: rest, seen =>
    if p ∈ seen then dedupKeepFirstGo rest seen
    else p :: dedupKeepFirstGo rest (p :: seen)

/-- Pairs with earlier duplicates removed. -/
def dedupKeepFirst (l : List (PStr × PStr)) : List (PStr × PStr) :=
  dedupKeepFirstGo l []

/-- The regex filter `^[0-9]+$`. -/
def isNumerico (c : PStr) : Bool :=
  decide (c ≠ []) && c.all (fun ch => ch.isDigit)

/-- The valid set of level-1 codes. -/
def CODIGOS_VALIDOS : List PStr :=
  [("1").data, ("2").data, ("3").data, ("4").data,
   ("5").data, ("6").data, ("7").data]

/-- Level-1 dictionary comprehension step. -/
def paso1step (j : Jerarquia) (p : PStr × PStr) : Jerarquia :=
  if p.1 ∈ CODIGOS_VALIDOS then upsertA j p.1 ⟨p.2, []⟩ else j

/-- Level-2 insertion step: attach under the 1-digit parent when it
    exists. -/
def paso2step (j : Jerarquia) (p : PStr × PStr) : Jerarquia :=
  if (lookupJ j (p.1.take 1)).isSome then
    updateJ j (p.1.take 1)
      (fun n => { n with subcuentas := upsertA n.subcuentas p.1 ⟨p.2, []⟩ })
  else j

/-- Level-3 insertion step: attach when both the 1-digit and 2-digit
    ancestors exist. -/
def paso3step (j : Jerarquia) (p : PStr × PStr) : Jerarquia :=
  match lookupJ j (p.1.take 1) with
  | none => j
  | some nd1 =>
    if (lookupJ nd1.subcuentas (p.1.take 2)).isSome then
      updateJ j (p.1.take 1) (fun n =>
        { n with subcuentas := updateJ n.subcuentas (p.1.take 2) (fun m =>
            { m with subcuentas := upsertA m.subcuentas p.1 ⟨p.2, []⟩ }) })
    else j

/-- Level-4 insertion step: attach the leaf when the whole ancestor chain
    exists. -/
def paso4step (j : Jerarquia) (p : PStr × PStr) : Jerarquia :=
  match lookupJ j (p.1.take 1) with
  | none => j
  | some nd1 =>
    match lookupJ nd1.subcuentas (p.1.take 2) with
    | none => j
    | some nd2 =>
      if (lookupJ nd2.subcuentas (p.1.take 4)).isSome then
        updateJ j (p.1.take 1) (fun n =>
          { n with subcuentas := updateJ n.subcuentas (p.1.take 2) (fun m =>
              { m with subcuentas := updateJ m.subcuentas (p.1.take 4) (fun o =>
                  { o with subcuentas := upsertA o.subcuentas p.1 p.2 }) }) })
      else j

/-- The hierarchy built from the distinct (code, label) pairs of the
    table. -/
def obtener_jerarquia_cuentas (pairs : List (PStr × PStr)) : Jerarquia :=
  ((((dedupKeepFirst pairs).filter (fun p => isNumerico p.1)).filter
        (fun p => decide (p.1.length = 1))).foldl paso1step []
    |> fun j => (((dedupKeepFirst pairs).filter (fun p => isNumerico p.1)).filter
        (fun p => decide (p.1.length = 2))).foldl paso2step j)
    |> fun j => (((dedupKeepFirst pairs).filter (fun p => isNumerico p.1)).filter
        (fun p => decide (p.1.length = 4))).foldl paso3step j
    |> fun j => (((dedupKeepFirst pairs).filter (fun p => isNumerico p.1)).filter
        (fun p => decide (p.1.length = 6))).foldl paso4step j

theorem lookupJ_isSome_iff {V : Type} :
    ∀ (l : List (PStr × V)) (c : PStr),
      (lookupJ l c).isSome ↔ ∃ v, (c, v) ∈ l := by
  intro l c
  induction l with
  | nil => simp [lookupJ]
  | cons e rest ih =>
    rcases e with ⟨k0, v0⟩
    by_cases hc : c = k0
    · subst hc
      simp [lookupJ]
    · rw [lookupJ, if_neg hc, ih]
      constructor
      · rintro ⟨v, hv⟩
        exact ⟨v, List.mem_cons_of_mem _ hv⟩
      · rintro ⟨v, hv⟩
        rcases List.mem_cons.mp hv with he | hm
        · exact absurd (congrArg Prod.fst he) hc
        · exact ⟨v, hm⟩

theorem mem_lookupJ_isSome {V : Type} {l : List (PStr × V)} {k : PStr} {v : V}
    (h : (k, v) ∈ l) : (lookupJ l k).isSome :=
  (lookupJ_isSome_iff l k).mpr ⟨v, h⟩

theorem lookupJ_upsertA_isSome {V : Type} :
    ∀ (l : List (PStr × V)) (k : PStr) (v : V) (c : PStr),
      (lookupJ (upsertA l k v) c).isSome ↔ (c = k ∨ (lookupJ l c).isSome) := by
  intro l k v c
  induction l with
  | nil =>
    by_cases hc : c = k
    · simp [upsertA, lookupJ, hc]
    · simp [upsertA, lookupJ, hc]
  | cons e rest ih =>
    rcases e with ⟨k0, v0⟩
    by_cases hk : k = k0
    · subst hk
      by_cases hc : c = k
      · simp [upsertA, lookupJ, hc]
      · simp [upsertA, lookupJ, hc]
    · rw [upsertA, if_neg hk]
      by_cases hc : c = k0
      · simp [lookupJ, hc]
      · rw [lookupJ, if_neg hc, lookupJ, if_neg hc]
        exact ih

theorem lookupJ_updateJ_isSome {V : Type} :
    ∀ (l : List (PStr × V)) (k : PStr) (f : V → V) (c : PStr),
      (lookupJ (updateJ l k f) c).isSome = (lookupJ l c).isSome := by
  intro l k f c
  induction l with
  | nil => rfl
  | cons e rest ih =>
    rcases e with ⟨k0, v0⟩
    by_cases hk : k = k0
    · rw [updateJ, if_pos hk]
      by_cases hc : c = k0
      · simp [lookupJ, hc]
      · rw [lookupJ, if_neg hc, lookupJ, if_neg hc]
    · rw [updateJ, if_neg hk]
      by_cases hc : c = k0
      · simp [lookupJ, hc]
      · rw [lookupJ, if_neg hc, lookupJ, if_neg hc]
        exact ih

theorem mem_upsertA {V : Type} :
    ∀ {l : List (PStr × V)} {k : PStr} {v : V} {e : PStr × V},
      e ∈ upsertA l k v → e = (k, v) ∨ e ∈ l := by
  intro l
  induction l with
  | nil =>
    intro k v e he
    simp [upsertA] at he
    exact Or.inl he
  | cons e0 rest ih =>
    intro k v e he
    rcases e0 with ⟨k0, v0⟩
    by_cases hk : k = k0
    · rw [upsertA, if_pos hk] at he
      rcases List.mem_cons.mp he with h1 | h1
      · exact Or.inl h1
      · exact Or.inr (List.mem_cons_of_mem _ h1)
    · rw [upsertA, if_neg hk] at he
      rcases List.mem_cons.mp he with h1 | h1
      · exact Or.inr (h1 ▸ List.mem_cons_self _ _)
      · rcases ih h1 with h2 | h2
        · exact Or.inl h2
        · exact Or.inr (List.mem_cons_of_mem _ h2)

theorem mem_updateJ {V : Type} :
    ∀ {l : List (PStr × V)} {k : PStr} {f : V → V} {e : PStr × V},
      e ∈ updateJ l k f → e ∈ l ∨ (e.1 = k ∧ ∃ v, (k, v) ∈ l ∧ e.2 = f v) := by
  intro l
  induction l with
  | nil =>
    intro k f e he
    simp [updateJ] at he
  | cons e0 rest ih =>
    intro k f e he
    rcases e0 with ⟨k0, v0⟩
    by_cases hk : k = k0
    · rw [updateJ, if_pos hk] at he
      rcases List.mem_cons.mp he with h1 | h1
      · subst hk
        refine Or.inr ⟨by rw [h1], v0, List.mem_cons_self _ _, by rw [h1]⟩
      · exact Or.inl (List.mem_cons_of_mem _ h1)
    · rw [updateJ, if_neg hk] at he
      rcases List.mem_cons.mp he with h1 | h1
      · exact Or.inl (h1 ▸ List.mem_cons_self _ _)
      · rcases ih h1 with h2 | h2
        · exact Or.inl (List.mem_cons_of_mem _ h2)
        · exact Or.inr ⟨h2.1, h2.2.imp (fun v hv => ⟨List.mem_cons_of_mem _ hv.1, hv.2⟩)⟩

theorem mem_dedupKeepFirstGo :
    ∀ (l seen : List (PStr × PStr)) (a : PStr × PStr),
      a ∈ dedupKeepFirstGo l seen ↔ (a ∈ l ∧ a ∉ seen) := by
  intro l
  induction l with
  | nil => intro seen a; simp [dedupKeepFirstGo]
  | cons p rest ih =>
    intro seen a
    by_cases hp : p ∈ seen
    · rw [dedupKeepFirstGo, if_pos hp, ih]
      constructor
      · rintro ⟨h1, h2⟩
        exact ⟨List.mem_cons_of_mem _ h1, h2⟩
      · rintro ⟨h1, h2⟩
        rcases List.mem_cons.mp h1 with rfl | h1
        · exact absurd hp h2
        · exact ⟨h1, h2⟩
    · rw [dedupKeepFirstGo, if_neg hp]
      by_cases ha : a = p
      · subst ha
        simp [hp]
      · constructor
        · intro h1
          rcases List.mem_cons.mp h1 with h2 | h2
          · exact absurd h2 ha
          · rcases (ih _ _).mp h2 with ⟨h3, h4⟩
            refine ⟨List.mem_cons_of_mem _ h3, fun hs => h4 (List.mem_cons_of_mem _ hs)⟩
        · rintro ⟨h1, h2⟩
          rcases List.mem_cons.mp h1 with h3 | h3
          · exact absurd h3 ha
          · exact List.mem_cons_of_mem _ ((ih _ _).mpr
              ⟨h3, fun hs => by
                rcases List.mem_cons.mp hs with h4 | h4
                · exact ha h4
                · exact h2 h4⟩)

theorem mem_dedupKeepFirst (l : List (PStr × PStr)) (a : PStr × PStr) :
    a ∈ dedupKeepFirst l ↔ a ∈ l := by
  rw [dedupKeepFirst, mem_dedupKeepFirstGo]
  simp

theorem foldl_lookup_isSome {B : Type} (step : Jerarquia → B → Jerarquia)
    (hstep : ∀ j b c, (lookupJ (step j b) c).isSome = (lookupJ j c).isSome) :
    ∀ (l : List B) (j : Jerarquia) (c : PStr),
      (lookupJ (l.foldl step j) c).isSome = (lookupJ j c).isSome := by
  intro l
  induction l with
  | nil => intro j c; rfl
  | cons b rest ih =>
    intro j c
    rw [List.foldl_cons, ih, hstep]

theorem foldl_preserve {A B : Type} (P : A → Prop) (step : A → B → A) :
    ∀ (l : List B), (∀ a b, b ∈ l → P a → P (step a b)) → ∀ a, P a → P (l.foldl step a) := by
  intro l
  induction l with
  | nil => intro _ a ha; exact ha
  | cons b rest ih =>
    intro hstep a ha
    rw [List.foldl_cons]
    exact ih (fun a2 b2 hb2 => hstep a2 b2 (List.mem_cons_of_mem _ hb2))
      (step a b) (hstep a b (List.mem_cons_self _ _) ha)

/-- Structural invariant of the hierarchy: level-1 keys come from the
    valid set, and every nested key has the documented length and extends
    the key of its parent chain. -/
def InvJ (j : Jerarquia) : Prop :=
  ∀ e ∈ j, e.1 ∈ CODIGOS_VALIDOS ∧
    ∀ f ∈ e.2.subcuentas, f.1.length = 2 ∧ f.1.take 1 = e.1 ∧
      ∀ g ∈ f.2.subcuentas, g.1.length = 4 ∧ g.1.take 2 = f.1 ∧ g.1.take 1 = e.1 ∧
        ∀ x ∈ g.2.subcuentas, x.1.length = 6 ∧ x.1.take 4 = g.1 ∧ x.1.take 2 = f.1
          ∧ x.1.take 1 = e.1

theorem InvJ_of_flat (j : Jerarquia)
    (h : ∀ e ∈ j, e.1 ∈ CODIGOS_VALIDOS ∧ e.2.subcuentas = []) : InvJ j := by
  intro e he
  obtain ⟨h1, h2⟩ := h e he
  refine ⟨h1, ?_⟩
  rw [h2]
  intro f hf
  exact absurd hf (List.not_mem_nil f)

theorem paso1_flat :
    ∀ (n1 : List (PStr × PStr)) (j : Jerarquia),
      (∀ e ∈ j, e.1 ∈ CODIGOS_VALIDOS ∧ e.2.subcuentas = []) →
      ∀ e ∈ n1.foldl paso1step j, e.1 ∈ CODIGOS_VALIDOS ∧ e.2.subcuentas = [] := by
  intro n1 j hj
  refine foldl_preserve (fun a => ∀ e ∈ a, e.1 ∈ CODIGOS_VALIDOS ∧ e.2.subcuentas = [])
    paso1step n1 ?_ j hj
  intro a p _ ha e he
  unfold paso1step at he
  by_cases hv : p.1 ∈ CODIGOS_VALIDOS
  · rw [if_pos hv] at he
    rcases mem_upsertA he with h1 | h1
    · rw [h1]
      exact ⟨hv, rfl⟩
    · exact ha e h1
  · rw [if_neg hv] at he
    exact ha e he

theorem inv_paso2step (j : Jerarquia) (p : PStr × PStr) (hlen : p.1.length = 2)
    (hinv : InvJ j) : InvJ (paso2step j p) := by
  unfold paso2step
  by_cases hg : (lookupJ j (p.1.take 1)).isSome
  · rw [if_pos hg]
    intro e he
    rcases mem_updateJ he with h1 | ⟨hek, v, hv, he2⟩
    · exact hinv e h1
    · obtain ⟨hv_valid, hv_children⟩ := hinv (p.1.take 1, v) hv
      refine ⟨by rw [hek]; exact hv_valid, ?_⟩
      intro f hf
      rw [he2] at hf
      rcases mem_upsertA hf with h2 | h2
      · rw [h2]
        refine ⟨hlen, by rw [hek], ?_⟩
        intro g hg2
        exact absurd hg2 (List.not_mem_nil g)
      · obtain ⟨hf1, hf2, hf3⟩ := hv_children f h2
        refine ⟨hf1, by rw [hek]; exact hf2, ?_⟩
        intro g hg3
        obtain ⟨a, b, c, d⟩ := hf3 g hg3
        refine ⟨a, b, by rw [hek]; exact c, ?_⟩
        intro x hx
        obtain ⟨q1, q2, q3, q4⟩ := d x hx
        exact ⟨q1, q2, q3, by rw [hek]; exact q4⟩
  · rw [if_neg hg]
    exact hinv

theorem inv_paso3step (j : Jerarquia) (p : PStr × PStr) (hlen : p.1.length = 4)
    (hinv : InvJ j) : InvJ (paso3step j p) := by
  unfold paso3step
  cases hl1 : lookupJ j (p.1.take 1) with
  | none => exact hinv
  | some nd1 =>
    dsimp only
    by_cases hg : (lookupJ nd1.subcuentas (p.1.take 2)).isSome
    · rw [if_pos hg]
      intro e he
      rcases mem_updateJ he with h1 | ⟨hek, v, hv, he2⟩
      · exact hinv e h1
      · obtain ⟨hv_valid, hv_children⟩ := hinv (p.1.take 1, v) hv
        refine ⟨by rw [hek]; exact hv_valid, ?_⟩
        intro f hf
        rw [he2] at hf
        rcases mem_updateJ hf with h2 | ⟨hfk, w, hw, hf2⟩
        · obtain ⟨a, b, c⟩ := hv_children f h2
          refine ⟨a, by rw [hek]; exact b, ?_⟩
          intro g hg2
          obtain ⟨q1, q2, q3, q4⟩ := c g hg2
          refine ⟨q1, q2, by rw [hek]; exact q3, ?_⟩
          intro x hx
          obtain ⟨r1, r2, r3, r4⟩ := q4 x hx
          exact ⟨r1, r2, r3, by rw [hek]; exact r4⟩
        · obtain ⟨hw_len, hw_take, hw_children⟩ := hv_children (p.1.take 2, w) hw
          refine ⟨by rw [hfk]; exact hw_len, by rw [hfk, hek]; exact hw_take, ?_⟩
          intro g hg2
          rw [hf2] at hg2
          rcases mem_upsertA hg2 with h3 | h3
          · rw [h3]
            refine ⟨hlen, by rw [hfk], by rw [hek], ?_⟩
            intro x hx
            exact absurd hx (List.not_mem_nil x)
          · obtain ⟨q1, q2, q3, q4⟩ := hw_children g h3
            refine ⟨q1, by rw [hfk]; exact q2, by rw [hek]; exact q3, ?_⟩
            intro x hx
            obtain ⟨r1, r2, r3, r4⟩ := q4 x hx
            exact ⟨r1, r2, by rw [hfk]; exact r3, by rw [hek]; exact r4⟩
    · rw [if_neg hg]
      exact hinv

theorem inv_paso4step (j : Jerarquia) (p : PStr × PStr) (hlen : p.1.length = 6)
    (hinv : InvJ j) : InvJ (paso4step j p) := by
  unfold paso4step
  cases hl1 : lookupJ j (p.1.take 1) with
  | none => exact hinv
  | some nd1 =>
    dsimp only
    cases hl2 : lookupJ nd1.subcuentas (p.1.take 2) with
    | none => exact hinv
    | some nd2 =>
      dsimp only
      by_cases hg : (lookupJ nd2.subcuentas (p.1.take 4)).isSome
      · rw [if_pos hg]
        intro e he
        rcases mem_updateJ he with h1 | ⟨hek, v, hv, he2⟩
        · exact hinv e h1
        · obtain ⟨hv_valid, hv_children⟩ := hinv (p.1.take 1, v) hv
          refine ⟨by rw [hek]; exact hv_valid, ?_⟩
          intro f hf
          rw [he2] at hf
          rcases mem_updateJ hf with h2 | ⟨hfk, w, hw, hf2⟩
          · obtain ⟨a, b, c⟩ := hv_children f h2
            refine ⟨a, by rw [hek]; exact b, ?_⟩
            intro g hg2
            obtain ⟨q1, q2, q3, q4⟩ := c g hg2
            refine ⟨q1, q2, by rw [hek]; exact q3, ?_⟩
            intro x hx
            obtain ⟨r1, r2, r3, r4⟩ := q4 x hx
            exact ⟨r1, r2, r3, by rw [hek]; exact r4⟩
          · obtain ⟨hw_len, hw_take, hw_children⟩ := hv_children (p.1.take 2, w) hw
            refine ⟨by rw [hfk]; exact hw_len, by rw [hfk, hek]; exact hw_take, ?_⟩
            intro g hg2
            rw [hf2] at hg2
            rcases mem_updateJ hg2 with h3 | ⟨hgk, o, ho, hg3⟩
            · obtain ⟨q1, q2, q3, q4⟩ := hw_children g h3
              refine ⟨q1, by rw [hfk]; exact q2, by rw [hek]; exact q3, ?_⟩
              intro x hx
              obtain ⟨r1, r2, r3, r4⟩ := q4 x hx
              exact ⟨r1, r2, by rw [hfk]; exact r3, by rw [hek]; exact r4⟩
            · obtain ⟨ho_len, ho_take2, ho_take1, ho_children⟩ :=
                hw_children (p.1.take 4, o) ho
              refine ⟨by rw [hgk]; exact ho_len, by rw [hgk, hfk]; exact ho_take2,
                by rw [hgk, hek]; exact ho_take1, ?_⟩
              intro x hx
              rw [hg3] at hx
              rcases mem_upsertA hx with h4 | h4
              · rw [h4]
                exact ⟨hlen, by rw [hgk], by rw [hfk], by rw [hek]⟩
              · obtain ⟨r1, r2, r3, r4⟩ := ho_children x h4
                exact ⟨r1, by rw [hgk]; exact r2, by rw [hfk]; exact r3,
                  by rw [hek]; exact r4⟩
      · rw [if_neg hg]
        exact hinv

/-- The distinct numeric (code, label) pairs feeding the hierarchy. -/
def cuentasNum (pairs : List (PStr × PStr)) : List (PStr × PStr) :=
  (dedupKeepFirst pairs).filter (fun p => isNumerico p.1)

theorem obtener_eq (pairs : List (PStr × PStr)) :
    obtener_jerarquia_cuentas pairs
      = ((cuentasNum pairs).filter (fun p => decide (p.1.length = 6))).foldl paso4step
          (((cuentasNum pairs).filter (fun p => decide (p.1.length = 4))).foldl paso3step
            (((cuentasNum pairs).filter (fun p => decide (p.1.length = 2))).foldl paso2step
              (((cuentasNum pairs).filter (fun p => decide (p.1.length = 1))).foldl paso1step
                []))) := rfl

theorem inv_obtener (pairs : List (PStr × PStr)) :
    InvJ (obtener_jerarquia_cuentas pairs) := by
  rw [obtener_eq]
  exact foldl_preserve InvJ paso4step _ (fun a b hb ha =>
      inv_paso4step a b (of_decide_eq_true (List.mem_filter.mp hb).2) ha) _
    (foldl_preserve InvJ paso3step _ (fun a b hb ha =>
      inv_paso3step a b (of_decide_eq_true (List.mem_filter.mp hb).2) ha) _
    (foldl_preserve InvJ paso2step _ (fun a b hb ha =>
      inv_paso2step a b (of_decide_eq_true (List.mem_filter.mp hb).2) ha) _
    (InvJ_of_flat _ (paso1_flat _ [] (fun e he => absurd he (List.not_mem_nil e))))))

theorem paso2step_lookup (j : Jerarquia) (p : PStr × PStr) (c : PStr) :
    (lookupJ (paso2step j p) c).isSome = (lookupJ j c).isSome := by
  unfold paso2step
  by_cases hg : (lookupJ j (p.1.take 1)).isSome
  · rw [if_pos hg, lookupJ_updateJ_isSome]
  · rw [if_neg hg]

theorem paso3step_lookup (j : Jerarquia) (p : PStr × PStr) (c : PStr) :
    (lookupJ (paso3step j p) c).isSome = (lookupJ j c).isSome := by
  unfold paso3step
  cases hl1 : lookupJ j (p.1.take 1) with
  | none => rfl
  | some nd1 =>
    dsimp only
    by_cases hg : (lookupJ nd1.subcuentas (p.1.take 2)).isSome
    · rw [if_pos hg, lookupJ_updateJ_isSome]
    · rw [if_neg hg]

theorem paso4step_lookup (j : Jerarquia) (p : PStr × PStr) (c : PStr) :
    (lookupJ (paso4step j p) c).isSome = (lookupJ j c).isSome := by
  unfold paso4step
  cases hl1 : lookupJ j (p.1.take 1) with
  | none => rfl
  | some nd1 =>
    dsimp only
    cases hl2 : lookupJ nd1.subcuentas (p.1.take 2) with
    | none => rfl
    | some nd2 =>
      dsimp only
      by_cases hg : (lookupJ nd2.subcuentas (p.1.take 4)).isSome
      · rw [if_pos hg, lookupJ_updateJ_isSome]
      · rw [if_neg hg]

theorem paso1_lookup :
    ∀ (n1 : List (PStr × PStr)) (acc : Jerarquia) (c : PStr),
      (lookupJ (n1.foldl paso1step acc) c).isSome
        ↔ ((lookupJ acc c).isSome ∨ (c ∈ CODIGOS_VALIDOS ∧ ∃ lbl, (c, lbl) ∈ n1)) := by
  intro n1
  induction n1 with
  | nil =>
    intro acc c
    simp
  | cons p rest ih =>
    intro acc c
    rw [List.foldl_cons, ih]
    unfold paso1step
    by_cases hv : p.1 ∈ CODIGOS_VALIDOS
    · rw [if_pos hv, lookupJ_upsertA_isSome]
      constructor
      · rintro ((rfl | hacc) | ⟨hcv, lbl, hlbl⟩)
        · exact Or.inr ⟨hv, p.2, List.mem_cons_self _ _⟩
        · exact Or.inl hacc
        · exact Or.inr ⟨hcv, lbl, List.mem_cons_of_mem _ hlbl⟩
      · rintro (hacc | ⟨hcv, lbl, hlbl⟩)
        · exact Or.inl (Or.inr hacc)
        · rcases List.mem_cons.mp hlbl with heq | hmem
          · exact Or.inl (Or.inl (congrArg Prod.fst heq))
          · exact Or.inr ⟨hcv, lbl, hmem⟩
    · rw [if_neg hv]
      constructor
      · rintro (hacc | ⟨hcv, lbl, hlbl⟩)
        · exact Or.inl hacc
        · exact Or.inr ⟨hcv, lbl, List.mem_cons_of_mem _ hlbl⟩
      · rintro (hacc | ⟨hcv, lbl, hlbl⟩)
        · exact Or.inl hacc
        · rcases List.mem_cons.mp hlbl with heq | hmem
          · exact absurd (congrArg Prod.fst heq ▸ hv) (fun h => h hcv)
          · exact Or.inr ⟨hcv, lbl, hmem⟩

theorem valid_facts :
    ∀ c ∈ CODIGOS_VALIDOS, isNumerico c = true ∧ c.length = 1 := by
  decide

theorem lookup_obtener (pairs : List (PStr × PStr)) (c : PStr) :
    (lookupJ (obtener_jerarquia_cuentas pairs) c).isSome
      ↔ (c ∈ CODIGOS_VALIDOS ∧ ∃ lbl, (c, lbl) ∈ pairs) := by
  rw [obtener_eq,
    foldl_lookup_isSome paso4step (fun j b c2 => paso4step_lookup j b c2),
    foldl_lookup_isSome paso3step (fun j b c2 => paso3step_lookup j b c2),
    foldl_lookup_isSome paso2step (fun j b c2 => paso2step_lookup j b c2),
    paso1_lookup]
  simp only [lookupJ, Option.isSome_none, Bool.false_eq_true, false_or]
  constructor
  · rintro ⟨hcv, lbl, hlbl⟩
    obtain ⟨h1, _⟩ := List.mem_filter.mp hlbl
    obtain ⟨h2, _⟩ := List.mem_filter.mp h1
    exact ⟨hcv, lbl, (mem_dedupKeepFirst pairs (c, lbl)).mp h2⟩
  · rintro ⟨hcv, lbl, hlbl⟩
    obtain ⟨hnum, hlen1⟩ := valid_facts c hcv
    refine ⟨hcv, lbl, List.mem_filter.mpr ⟨List.mem_filter.mpr
      ⟨(mem_dedupKeepFirst pairs (c, lbl)).mpr hlbl, hnum⟩, by simp [hlen1]⟩⟩

/-- A code occurs somewhere in the hierarchy: as a level-1 key or as a key
    at any nested level. -/
def enJerarquia (j : Jerarquia) (c : PStr) : Prop :=
  (lookupJ j c).isSome
  ∨ (∃ e ∈ j, (lookupJ e.2.subcuentas c).isSome)
  ∨ (∃ e ∈ j, ∃ f ∈ e.2.subcuentas, (lookupJ f.2.subcuentas c).isSome)
  ∨ (∃ e ∈ j, ∃ f ∈ e.2.subcuentas, ∃ g ∈ f.2.subcuentas,
      (lookupJ g.2.subcuentas c).isSome)

/-- Claim C6: level-1 nodes are exactly the valid-set codes present among
    the (code, label) pairs; every nested code hangs under exactly its
    prefix ancestors; and a 2-digit code whose 1-digit parent is absent
    appears nowhere in the tree (the parent-chain rule likewise pins down
    4- and 6-digit codes). -/
theorem obtener_jerarquia_spec :
    ∀ pairs : List (PStr × PStr),
      (∀ c : PStr, (lookupJ (obtener_jerarquia_cuentas pairs) c).isSome
          ↔ (c ∈ CODIGOS_VALIDOS ∧ ∃ lbl, (c, lbl) ∈ pairs))
      ∧ (∀ (c : PStr) (e : PStr × Nodo1), e ∈ obtener_jerarquia_cuentas pairs →
          (lookupJ e.2.subcuentas c).isSome →
          c.length = 2 ∧ c.take 1 = e.1
            ∧ (lookupJ (obtener_jerarquia_cuentas pairs) e.1).isSome)
      ∧ (∀ c : PStr, c.length = 2 →
          ¬ (lookupJ (obtener_jerarquia_cuentas pairs) (c.take 1)).isSome →
          ¬ enJerarquia (obtener_jerarquia_cuentas pairs) c)
      ∧ (∀ (c : PStr) (e : PStr × Nodo1) (f : PStr × Nodo2),
          e ∈ obtener_jerarquia_cuentas pairs → f ∈ e.2.subcuentas →
          (lookupJ f.2.subcuentas c).isSome →
          c.length = 4 ∧ c.take 2 = f.1 ∧ c.take 1 = e.1)
      ∧ (∀ (c : PStr) (e : PStr × Nodo1) (f : PStr × Nodo2) (g : PStr × Nodo3),
          e ∈ obtener_jerarquia_cuentas pairs → f ∈ e.2.subcuentas →
          g ∈ f.2.subcuentas → (lookupJ g.2.subcuentas c).isSome →
          c.length = 6 ∧ c.take 4 = g.1 ∧ c.take 2 = f.1 ∧ c.take 1 = e.1) := by
  intro pairs
  have hinv := inv_obtener pairs
  refine ⟨lookup_obtener pairs, ?_, ?_, ?_, ?_⟩
  · intro c e he hlk
    obtain ⟨v, hv⟩ := (lookupJ_isSome_iff _ _).mp hlk
    obtain ⟨_, hch⟩ := hinv e he
    obtain ⟨hl2, ht1, _⟩ := hch (c, v) hv
    exact ⟨hl2, ht1, mem_lookupJ_isSome (show (e.1, e.2) ∈ _ from he)⟩
  · intro c hclen hpar hin
    rcases hin with h | ⟨e, he, hlk⟩ | ⟨e, he, f, hf, hlk⟩ | ⟨e, he, f, hf, g, hg, hlk⟩
    · obtain ⟨v, hv⟩ := (lookupJ_isSome_iff _ _).mp h
      obtain ⟨hval, _⟩ := hinv (c, v) hv
      obtain ⟨_, hl1⟩ := valid_facts c hval
      omega
    · obtain ⟨v, hv⟩ := (lookupJ_isSome_iff _ _).mp hlk
      obtain ⟨_, hch⟩ := hinv e he
      obtain ⟨_, ht1, _⟩ := hch (c, v) hv
      exact hpar (by rw [ht1]; exact mem_lookupJ_isSome (show (e.1, e.2) ∈ _ from he))
    · obtain ⟨v, hv⟩ := (lookupJ_isSome_iff _ _).mp hlk
      obtain ⟨_, hch⟩ := hinv e he
      obtain ⟨_, _, hgs⟩ := hch f hf
      obtain ⟨hl4, _, _, _⟩ := hgs (c, v) hv
      have hc4 : c.length = 4 := hl4
      omega
    · obtain ⟨v, hv⟩ := (lookupJ_isSome_iff _ _).mp hlk
      obtain ⟨_, hch⟩ := hinv e he
      obtain ⟨_, _, hgs⟩ := hch f hf
      obtain ⟨_, _, _, hxs⟩ := hgs g hg
      obtain ⟨hl6, _, _, _⟩ := hxs (c, v) hv
      have hc6 : c.length = 6 := hl6
      omega
  · intro c e f he hf hlk
    obtain ⟨v, hv⟩ := (lookupJ_isSome_iff _ _).mp hlk
    obtain ⟨_, hch⟩ := hinv e he
    obtain ⟨_, _, hgs⟩ := hch f hf
    obtain ⟨h1, h2, h3, _⟩ := hgs (c, v) hv
    exact ⟨h1, h2, h3⟩
  · intro c e f g he hf hg hlk
    obtain ⟨v, hv⟩ := (lookupJ_isSome_iff _ _).mp hlk
    obtain ⟨_, hch⟩ := hinv e he
    obtain ⟨_, _, hgs⟩ := hch f hf
    obtain ⟨_, _, _, hxs⟩ := hgs g hg
    exact hxs (c, v) hv

/-- Pairs with a valid level-1 code, a 2-digit child and an orphan 2-digit
    code. -/
def ejemploPairs : List (PStr × PStr) :=
  [(("1").data, ("ACTIVO").data),
   (("14").data, ("CARTERA DE CREDITOS").data),
   (("99").data, ("SIN PADRE").data)]

/-- Claim C6 (witness): the theorem applied to the concrete pairs shows
    the valid level-1 code is present and the orphan 2-digit code appears
    nowhere. -/
theorem obtener_jerarquia_spec_witness :
    (lookupJ (obtener_jerarquia_cuentas ejemploPairs) (("1").data)).isSome
    ∧ ¬ enJerarquia (obtener_jerarquia_cuentas ejemploPairs) (("99").data) :=
  ⟨((obtener_jerarquia_spec ejemploPairs).1 (("1").data)).mpr
      ⟨by decide, ("ACTIVO").data, by decide⟩,
   (obtener_jerarquia_spec ejemploPairs).2.2.1 (("99").data) (by decide) (by decide)⟩
